import Mathlib

/-!
Verification of the LOD octree core of this repository.

The subdivision criterion `can_subdivide` is translated from
`src/main.rs` (impl `CanSubdivide for NodeKey<IVec3>`).  Machine
integers (`i32`) are modelled as `Int` together with explicit wrapping
(`wrap32`, for Rust's value-discarding shifts), saturation (`clamp32`,
for `saturating_add`/`saturating_sub`) and checked operations
(`checkedAdd`/`checkedSub`/`checkedMul`, which return `none` where the
Rust debug build panics on overflow, including shift amounts ≥ 32).
Fallible evaluation therefore lives in `Option`.

The tree fill (`fill_tree_from_root`) and the depth-first traversal
(`visit_tree_depth_first`) are provided by the external `grid_tree`
crate whose code is not part of the repository; they are modelled from
the spec (see the respective doc comments), specialised to the closures
that `update_octree` and `render` pass in.
-/

namespace OctreeLod

/-- `i32::MIN` as an integer. -/
def i32min : Int := -2147483648

/-- `i32::MAX` as an integer. -/
def i32max : Int := 2147483647

/-- Two's-complement wrap to the `i32` range (the value part of a Rust
left shift discards overflowed bits, i.e. wraps). -/
def wrap32 (x : Int) : Int := (x + 2147483648) % 4294967296 - 2147483648

/-- Clamp to the `i32` range; the kernel of the saturating operations. -/
def clamp32 (x : Int) : Int :=
  if x < i32min then i32min else if i32max < x then i32max else x

/-- Rust `i32` addition in a debug build: panics (`none`) on overflow. -/
def checkedAdd (a b : Int) : Option Int :=
  if i32min ≤ a + b ∧ a + b ≤ i32max then some (a + b) else none

/-- Rust `i32` subtraction in a debug build: panics (`none`) on overflow. -/
def checkedSub (a b : Int) : Option Int :=
  if i32min ≤ a - b ∧ a - b ≤ i32max then some (a - b) else none

/-- Rust `i32` multiplication in a debug build: panics (`none`) on overflow. -/
def checkedMul (a b : Int) : Option Int :=
  if i32min ≤ a * b ∧ a * b ≤ i32max then some (a * b) else none

/-- Rust `i32` left shift: panics (`none`) for shift amounts ≥ 32,
otherwise wraps the value into the `i32` range. -/
def shl32 (a : Int) (k : Nat) : Option Int :=
  if k < 32 then some (wrap32 (a * 2 ^ k)) else none

/-- Rust `i32::saturating_sub`. -/
def satSub (a b : Int) : Int := clamp32 (a - b)

/-- Rust `i32::saturating_add`. -/
def satAdd (a b : Int) : Int := clamp32 (a + b)

/-- A fully saturating left shift (no such operation is used by the
code; this is the reading mandated by the spec's saturation policy). -/
def satShl (a : Int) (k : Nat) : Int := clamp32 (a * 2 ^ k)

/-- `bevy`'s `IVec3`: a triple of `i32` coordinates. -/
structure IVec3 where
  x : Int
  y : Int
  z : Int
deriving DecidableEq, Repr

/-- `grid_tree::NodeKey<IVec3>`: an octree level paired with a grid
coordinate.  `Level` is an unsigned integer, modelled as `Nat`. -/
structure NodeKey where
  level : Nat
  coordinates : IVec3
deriving DecidableEq, Repr

/-- The subtrahend of the min corner in `can_subdivide`:
`((detail + 1) << level_difference) - (1 << level_difference)`,
with the debug-build overflow behaviour of each operation. -/
def corner_sub (detail : Int) (d : Nat) : Option Int := do
  let t ← checkedAdd detail 1
  let m ← shl32 t d
  let o ← shl32 1 d
  checkedSub m o

/-- The addend of the max corner in `can_subdivide`:
`((detail + 1) << level_difference) + (1 << level_difference)`. -/
def corner_add (detail : Int) (d : Nat) : Option Int := do
  let t ← checkedAdd detail 1
  let m ← shl32 t d
  let o ← shl32 1 d
  checkedAdd m o

/-- One axis of the minimum corner of the bounding box in
`can_subdivide`: `(n << (d + 1)).saturating_sub(corner_sub)`. -/
def box_min (n detail : Int) (d : Nat) : Option Int := do
  let b ← shl32 n (d + 1)
  let s ← corner_sub detail d
  pure (satSub b s)

/-- One axis of the maximum corner of the bounding box in
`can_subdivide`: `(n << (d + 1)).saturating_add(corner_add)`. -/
def box_max (n detail : Int) (d : Nat) : Option Int := do
  let b ← shl32 n (d + 1)
  let a ← corner_add detail d
  pure (satAdd b a)

/-- One axis of the local position of the target in `can_subdivide`:
`s << 1`. -/
def local_pos (s : Int) : Option Int := shl32 s 1

/-- `CanSubdivide::can_subdivide` from `src/main.rs`, for
`NodeKey<IVec3>`: `self` is the focus (target) key, `node_key` the
candidate.  Returns `none` exactly when the Rust debug build panics
while evaluating the bounding-box arithmetic. -/
def can_subdivide (self node_key : NodeKey) (detail : Int) : Option Bool :=
  if node_key.level < self.level then some false
  else
    match box_min node_key.coordinates.x detail (node_key.level - self.level),
          box_min node_key.coordinates.y detail (node_key.level - self.level),
          box_min node_key.coordinates.z detail (node_key.level - self.level),
          box_max node_key.coordinates.x detail (node_key.level - self.level),
          box_max node_key.coordinates.y detail (node_key.level - self.level),
          box_max node_key.coordinates.z detail (node_key.level - self.level),
          local_pos self.coordinates.x,
          local_pos self.coordinates.y,
          local_pos self.coordinates.z with
    | some minx, some miny, some minz,
      some maxx, some maxy, some maxz,
      some lx, some ly, some lz =>
        some (decide (lx ≥ minx) && decide (lx < maxx) &&
              decide (ly ≥ miny) && decide (ly < maxy) &&
              decide (lz ≥ minz) && decide (lz < maxz))
    | _, _, _, _, _, _, _, _, _ => none

/-- Modelled from the spec: the min-corner subtrahend under the spec's
fully saturating arithmetic policy. -/
def sat_corner_sub (detail : Int) (d : Nat) : Int :=
  satSub (satShl (satAdd detail 1) d) (satShl 1 d)

/-- Modelled from the spec: the max-corner addend under the spec's
fully saturating arithmetic policy. -/
def sat_corner_add (detail : Int) (d : Nat) : Int :=
  satAdd (satShl (satAdd detail 1) d) (satShl 1 d)

/-- Modelled from the spec: one axis of the min corner, fully saturating. -/
def sat_box_min (n detail : Int) (d : Nat) : Int :=
  satSub (satShl n (d + 1)) (sat_corner_sub detail d)

/-- Modelled from the spec: one axis of the max corner, fully saturating. -/
def sat_box_max (n detail : Int) (d : Nat) : Int :=
  satAdd (satShl n (d + 1)) (sat_corner_add detail d)

/-- Modelled from the spec: the same subdivision criterion under the
spec's fully saturating arithmetic policy, in which every index-space
shift, add and subtract saturates at the `i32` extremes and nothing can
fail. -/
def can_subdivide_sat (self node_key : NodeKey) (detail : Int) : Bool :=
  if node_key.level < self.level then false
  else
    decide (satShl self.coordinates.x 1 ≥
        sat_box_min node_key.coordinates.x detail (node_key.level - self.level)) &&
    decide (satShl self.coordinates.x 1 <
        sat_box_max node_key.coordinates.x detail (node_key.level - self.level)) &&
    decide (satShl self.coordinates.y 1 ≥
        sat_box_min node_key.coordinates.y detail (node_key.level - self.level)) &&
    decide (satShl self.coordinates.y 1 <
        sat_box_max node_key.coordinates.y detail (node_key.level - self.level)) &&
    decide (satShl self.coordinates.z 1 ≥
        sat_box_min node_key.coordinates.z detail (node_key.level - self.level)) &&
    decide (satShl self.coordinates.z 1 <
        sat_box_max node_key.coordinates.z detail (node_key.level - self.level))

/-- The min corner of the spec's detail-expanded child box of the
candidate, in exact integer arithmetic: the candidate's children span
`[2n·2^d, (2n+2)·2^d]` in doubled coordinates and are expanded by
`detail` cells scaled to the level difference `d`. -/
def spec_box_min (n detail : Int) (d : Nat) : Int := 2 ^ d * (2 * n - detail)

/-- The max corner of the spec's detail-expanded child box. -/
def spec_box_max (n detail : Int) (d : Nat) : Int := 2 ^ d * (2 * n + detail + 2)

/-- The doubled focus coordinate lies strictly inside the spec's
detail-expanded child box on all three axes, with strict inequality at
both corners (the reading asserted by the spec sentence under test). -/
def strictly_inside (self node_key : NodeKey) (detail : Int) : Prop :=
  spec_box_min node_key.coordinates.x detail (node_key.level - self.level) <
      2 * self.coordinates.x ∧
  2 * self.coordinates.x <
      spec_box_max node_key.coordinates.x detail (node_key.level - self.level) ∧
  spec_box_min node_key.coordinates.y detail (node_key.level - self.level) <
      2 * self.coordinates.y ∧
  2 * self.coordinates.y <
      spec_box_max node_key.coordinates.y detail (node_key.level - self.level) ∧
  spec_box_min node_key.coordinates.z detail (node_key.level - self.level) <
      2 * self.coordinates.z ∧
  2 * self.coordinates.z <
      spec_box_max node_key.coordinates.z detail (node_key.level - self.level)

instance strictly_inside_dec (self node_key : NodeKey) (detail : Int) :
    Decidable (strictly_inside self node_key detail) := by
  unfold strictly_inside
  infer_instance

/-- The min corner actually computed by `can_subdivide` on one axis
when no intermediate operation panics. -/
def cmin (n detail : Int) (d : Nat) : Int :=
  satSub (wrap32 (n * 2 ^ (d + 1))) (detail * 2 ^ d)

/-- The max corner actually computed by `can_subdivide` on one axis
when no intermediate operation panics. -/
def cmax (n detail : Int) (d : Nat) : Int :=
  satAdd (wrap32 (n * 2 ^ (d + 1))) ((detail + 2) * 2 ^ d)

/-- The inclusion test actually evaluated by `can_subdivide` when no
intermediate operation panics. -/
def inside_box (self node_key : NodeKey) (detail : Int) (d : Nat) : Prop :=
  cmin node_key.coordinates.x detail d ≤ wrap32 (self.coordinates.x * 2) ∧
  wrap32 (self.coordinates.x * 2) < cmax node_key.coordinates.x detail d ∧
  cmin node_key.coordinates.y detail d ≤ wrap32 (self.coordinates.y * 2) ∧
  wrap32 (self.coordinates.y * 2) < cmax node_key.coordinates.y detail d ∧
  cmin node_key.coordinates.z detail d ≤ wrap32 (self.coordinates.z * 2) ∧
  wrap32 (self.coordinates.z * 2) < cmax node_key.coordinates.z detail d

instance inside_box_dec (self node_key : NodeKey) (detail : Int) (d : Nat) :
    Decidable (inside_box self node_key detail d) := by
  unfold inside_box
  infer_instance

/-- The no-wrap condition on one candidate axis: the doubled child-box
corner arithmetic stays inside the `i32` range, so neither the shift
wraps nor the final saturating operation clamps. -/
def no_wrap_axis (n detail : Int) (d : Nat) : Prop :=
  i32min ≤ n * 2 ^ (d + 1) - (detail + 2) * 2 ^ d ∧
  n * 2 ^ (d + 1) + (detail + 2) * 2 ^ d ≤ i32max

/-- The doubled focus coordinate stays inside the `i32` range. -/
def local_in_range (s : Int) : Prop := i32min ≤ s * 2 ∧ s * 2 ≤ i32max

instance no_wrap_axis_dec (n detail : Int) (d : Nat) :
    Decidable (no_wrap_axis n detail d) := by
  unfold no_wrap_axis
  infer_instance

instance local_in_range_dec (s : Int) : Decidable (local_in_range s) := by
  unfold local_in_range
  infer_instance

/-- `OCTREE_HEIGHT` from `src/main.rs`. -/
def OCTREE_HEIGHT : Nat := 10

/-- `DETAIL` from `src/main.rs`. -/
def DETAIL : Int := 1

/-- The root level of `OctreeI32::new(OCTREE_HEIGHT)`; per the spec,
`new(height)` constructs an octree whose root level is `height - 1`. -/
def root_level : Nat := OCTREE_HEIGHT - 1

/-- The root key used by `update_octree`: `NodeKey::new(tree.root_level(), IVec3::ZERO)`. -/
def root_key : NodeKey := ⟨root_level, ⟨0, 0, 0⟩⟩

/-- The 8 children of a node, one level below, with coordinates
`2·C + {0,1}` on each axis, in a fixed deterministic order. -/
def children (k : NodeKey) : List NodeKey :=
  [⟨k.level - 1, ⟨2 * k.coordinates.x,     2 * k.coordinates.y,     2 * k.coordinates.z⟩⟩,
   ⟨k.level - 1, ⟨2 * k.coordinates.x + 1, 2 * k.coordinates.y,     2 * k.coordinates.z⟩⟩,
   ⟨k.level - 1, ⟨2 * k.coordinates.x,     2 * k.coordinates.y + 1, 2 * k.coordinates.z⟩⟩,
   ⟨k.level - 1, ⟨2 * k.coordinates.x + 1, 2 * k.coordinates.y + 1, 2 * k.coordinates.z⟩⟩,
   ⟨k.level - 1, ⟨2 * k.coordinates.x,     2 * k.coordinates.y,     2 * k.coordinates.z + 1⟩⟩,
   ⟨k.level - 1, ⟨2 * k.coordinates.x + 1, 2 * k.coordinates.y,     2 * k.coordinates.z + 1⟩⟩,
   ⟨k.level - 1, ⟨2 * k.coordinates.x,     2 * k.coordinates.y + 1, 2 * k.coordinates.z + 1⟩⟩,
   ⟨k.level - 1, ⟨2 * k.coordinates.x + 1, 2 * k.coordinates.y + 1, 2 * k.coordinates.z + 1⟩⟩]

/-- The parent address of a node: one level up, coordinates halved
rounding toward negative infinity. -/
def parent (k : NodeKey) : NodeKey :=
  ⟨k.level + 1,
   ⟨Int.fdiv k.coordinates.x 2, Int.fdiv k.coordinates.y 2, Int.fdiv k.coordinates.z 2⟩⟩

/-- Modelled from the spec: `grid_tree`'s `fill_tree_from_root` (the
crate is not part of this repository), specialised to the closure that
`update_octree` passes in.  Pre-order: the visited node is inserted
(`getOrInsert` + `Vacant → insert`), then all 8 children are visited
when `can_subdivide` returns `true` (`Continue`), none otherwise
(`SkipDescendants`); recursion stops at level 0.  The level doubles as
recursion fuel; the call sites keep `fuel = key.level`.  The result is
the list of inserted node addresses. -/
def fillGo (target : NodeKey) (detail : Int) : Nat → NodeKey → List NodeKey
  | 0, key => [key]
  | fuel + 1, key =>
      key ::
        (if can_subdivide target key detail = some true then
          (children key).flatMap (fillGo target detail fuel)
        else [])

/-- Modelled from the spec: the whole fill starting at a root key. -/
def fill_tree_from_root (target : NodeKey) (detail : Int) (root : NodeKey) : List NodeKey :=
  fillGo target detail root.level root

/-- `update_octree` from `src/main.rs`: overwrite the octree with a
fresh one and fill it from the zero root, with the focus key at level 0
built from the target position; the set of nodes present afterwards. -/
def update_octree (target : IVec3) : List NodeKey :=
  fill_tree_from_root ⟨0, target⟩ DETAIL root_key

/-- Modelled from the spec: `grid_tree`'s `visit_tree_depth_first`
specialised to `render`'s always-`Continue` visitor: pre-order over the
nodes actually present in storage; absent children are skipped. -/
def visitGo (tree : List NodeKey) : Nat → NodeKey → List NodeKey
  | 0, key => [key]
  | fuel + 1, key =>
      key :: ((children key).filter (fun c => decide (c ∈ tree))).flatMap (visitGo tree fuel)

/-- The nodes visited by `render`: for every populated root-level node
(`iter_roots`), a depth-first traversal of its present subtree. -/
def render_visited (target : IVec3) : List NodeKey :=
  ((update_octree target).filter (fun k => k.level == root_level)).flatMap
    (fun r => visitGo (update_octree target) r.level r)

/-- `2i32.pow(level)`: panics (`none`) when the result overflows `i32`. -/
def pow2_i32 (l : Nat) : Option Int := if l ≤ 30 then some (2 ^ l) else none

/-- The world-space bounds computed per visited node in `render`:
`scale_factor = 2^level`, `child_min = coords * scale_factor`,
`child_max = child_min + splat(scale_factor)`, with debug-build
overflow semantics. -/
def render_bounds (k : NodeKey) : Option (IVec3 × IVec3) := do
  let sf ← pow2_i32 k.level
  let mnx ← checkedMul k.coordinates.x sf
  let mny ← checkedMul k.coordinates.y sf
  let mnz ← checkedMul k.coordinates.z sf
  let mxx ← checkedAdd mnx sf
  let mxy ← checkedAdd mny sf
  let mxz ← checkedAdd mnz sf
  pure (⟨mnx, mny, mnz⟩, ⟨mxx, mxy, mxz⟩)

/-- Coordinate bounds of every node inserted by `update_octree`: level
at most the root level and coordinates in `[0, 2^(root_level - level))`. -/
def in_bounds (k : NodeKey) : Prop :=
  k.level ≤ root_level ∧
  0 ≤ k.coordinates.x ∧ k.coordinates.x < 2 ^ (root_level - k.level) ∧
  0 ≤ k.coordinates.y ∧ k.coordinates.y < 2 ^ (root_level - k.level) ∧
  0 ≤ k.coordinates.z ∧ k.coordinates.z < 2 ^ (root_level - k.level)

theorem wrap32_lb (x : Int) : i32min ≤ wrap32 x := by
  simp only [wrap32, i32min]; omega

theorem wrap32_ub (x : Int) : wrap32 x ≤ i32max := by
  simp only [wrap32, i32max]; omega

theorem wrap32_eq_self {x : Int} (h1 : i32min ≤ x) (h2 : x ≤ i32max) :
    wrap32 x = x := by
  simp only [i32min] at h1; simp only [i32max] at h2; simp only [wrap32]; omega

theorem wrap32_double_even (x : Int) : wrap32 (x * 2) % 2 = 0 := by
  simp only [wrap32]; omega

theorem clamp32_mono {a b : Int} (h : a ≤ b) : clamp32 a ≤ clamp32 b := by
  simp only [clamp32, i32min, i32max]; split_ifs <;> omega

theorem clamp32_eq_self {x : Int} (h1 : i32min ≤ x) (h2 : x ≤ i32max) :
    clamp32 x = x := by
  simp only [i32min] at h1; simp only [i32max] at h2
  simp only [clamp32, i32min, i32max]; split_ifs <;> omega

theorem checkedAdd_eq {a b : Int} (h1 : i32min ≤ a + b) (h2 : a + b ≤ i32max) :
    checkedAdd a b = some (a + b) := by
  simp only [checkedAdd]; rw [if_pos ⟨h1, h2⟩]

theorem checkedSub_eq {a b : Int} (h1 : i32min ≤ a - b) (h2 : a - b ≤ i32max) :
    checkedSub a b = some (a - b) := by
  simp only [checkedSub]; rw [if_pos ⟨h1, h2⟩]

theorem checkedMul_eq {a b : Int} (h1 : i32min ≤ a * b) (h2 : a * b ≤ i32max) :
    checkedMul a b = some (a * b) := by
  simp only [checkedMul]; rw [if_pos ⟨h1, h2⟩]

theorem shl32_eq (a : Int) {k : Nat} (h : k < 32) :
    shl32 a k = some (wrap32 (a * 2 ^ k)) := by
  simp only [shl32]; rw [if_pos h]

theorem local_pos_eval (s : Int) : local_pos s = some (wrap32 (s * 2)) := by
  simp only [local_pos, shl32]
  rw [if_pos (by norm_num)]
  norm_num

theorem one_le_two_pow_int (d : Nat) : (1 : Int) ≤ 2 ^ d := by
  have := pow_pos (show (0:Int) < 2 by norm_num) d
  omega

theorem two_pow_le_of_le {d : Nat} (h : d ≤ 30) : (2 : Int) ^ d ≤ 2 ^ 30 :=
  pow_le_pow_right₀ (by norm_num) h

theorem corner_sub_eval {detail : Int} {d : Nat} (hd : d ≤ 30) (h0 : 0 ≤ detail)
    (hb : (detail + 2) * 2 ^ d ≤ i32max) :
    corner_sub detail d = some (detail * 2 ^ d) := by
  have hp1 : (1 : Int) ≤ 2 ^ d := one_le_two_pow_int d
  have hd2 : detail + 2 ≤ (detail + 2) * 2 ^ d := le_mul_of_one_le_right (by omega) hp1
  have hm1 : (detail + 1) * 2 ^ d ≤ (detail + 2) * 2 ^ d :=
    mul_le_mul_of_nonneg_right (by omega) (by positivity)
  have hm0 : detail * 2 ^ d ≤ (detail + 1) * 2 ^ d :=
    mul_le_mul_of_nonneg_right (by omega) (by positivity)
  have hnn : (0 : Int) ≤ detail * 2 ^ d := mul_nonneg h0 (by positivity)
  have hnn1 : (0 : Int) ≤ (detail + 1) * 2 ^ d := mul_nonneg (by omega) (by positivity)
  simp only [i32max] at hb
  have e1 : checkedAdd detail 1 = some (detail + 1) :=
    checkedAdd_eq (by simp only [i32min]; omega) (by simp only [i32max]; omega)
  have e2 : shl32 (detail + 1) d = some ((detail + 1) * 2 ^ d) := by
    rw [shl32_eq _ (by omega)]
    rw [wrap32_eq_self (by simp only [i32min]; omega) (by simp only [i32max]; omega)]
  have e3 : shl32 1 d = some ((2 : Int) ^ d) := by
    have h30 : (2 : Int) ^ d ≤ 2 ^ 30 := two_pow_le_of_le hd
    rw [shl32_eq _ (by omega)]
    rw [one_mul, wrap32_eq_self (by simp only [i32min]; omega)
      (by simp only [i32max]; norm_num at h30 ⊢; omega)]
  have e4 : checkedSub ((detail + 1) * 2 ^ d) (2 ^ d) = some (detail * 2 ^ d) := by
    have heq : (detail + 1) * 2 ^ d - 2 ^ d = detail * 2 ^ d := by ring
    rw [checkedSub_eq (by simp only [i32min]; omega) (by simp only [i32max]; omega), heq]
  rw [corner_sub, e1]
  simp only [Option.bind_eq_bind, Option.some_bind]
  rw [e2]
  simp only [Option.some_bind]
  rw [e3]
  simp only [Option.some_bind]
  exact e4

theorem corner_add_eval {detail : Int} {d : Nat} (hd : d ≤ 30) (h0 : 0 ≤ detail)
    (hb : (detail + 2) * 2 ^ d ≤ i32max) :
    corner_add detail d = some ((detail + 2) * 2 ^ d) := by
  have hp1 : (1 : Int) ≤ 2 ^ d := one_le_two_pow_int d
  have hd2 : detail + 2 ≤ (detail + 2) * 2 ^ d := le_mul_of_one_le_right (by omega) hp1
  have hm1 : (detail + 1) * 2 ^ d ≤ (detail + 2) * 2 ^ d :=
    mul_le_mul_of_nonneg_right (by omega) (by positivity)
  have hnn1 : (0 : Int) ≤ (detail + 1) * 2 ^ d := mul_nonneg (by omega) (by positivity)
  simp only [i32max] at hb
  have e1 : checkedAdd detail 1 = some (detail + 1) :=
    checkedAdd_eq (by simp only [i32min]; omega) (by simp only [i32max]; omega)
  have e2 : shl32 (detail + 1) d = some ((detail + 1) * 2 ^ d) := by
    rw [shl32_eq _ (by omega)]
    rw [wrap32_eq_self (by simp only [i32min]; omega) (by simp only [i32max]; omega)]
  have e3 : shl32 1 d = some ((2 : Int) ^ d) := by
    have h30 : (2 : Int) ^ d ≤ 2 ^ 30 := two_pow_le_of_le hd
    rw [shl32_eq _ (by omega)]
    rw [one_mul, wrap32_eq_self (by simp only [i32min]; omega)
      (by simp only [i32max]; norm_num at h30 ⊢; omega)]
  have e4 : checkedAdd ((detail + 1) * 2 ^ d) (2 ^ d) = some ((detail + 2) * 2 ^ d) := by
    have heq : (detail + 1) * 2 ^ d + 2 ^ d = (detail + 2) * 2 ^ d := by ring
    rw [checkedAdd_eq (by simp only [i32min]; omega) (by simp only [i32max]; omega), heq]
  rw [corner_add, e1]
  simp only [Option.bind_eq_bind, Option.some_bind]
  rw [e2]
  simp only [Option.some_bind]
  rw [e3]
  simp only [Option.some_bind]
  exact e4

theorem box_min_eval {detail : Int} (n : Int) {d : Nat} (hd : d ≤ 30) (h0 : 0 ≤ detail)
    (hb : (detail + 2) * 2 ^ d ≤ i32max) :
    box_min n detail d = some (cmin n detail d) := by
  rw [box_min, shl32_eq n (by omega)]
  simp only [Option.bind_eq_bind, Option.some_bind]
  rw [corner_sub_eval hd h0 hb]
  simp only [Option.some_bind, Option.pure_def]
  rfl

theorem box_max_eval {detail : Int} (n : Int) {d : Nat} (hd : d ≤ 30) (h0 : 0 ≤ detail)
    (hb : (detail + 2) * 2 ^ d ≤ i32max) :
    box_max n detail d = some (cmax n detail d) := by
  rw [box_max, shl32_eq n (by omega)]
  simp only [Option.bind_eq_bind, Option.some_bind]
  rw [corner_add_eval hd h0 hb]
  simp only [Option.some_bind, Option.pure_def]
  rfl

theorem can_subdivide_eval (self node_key : NodeKey) (detail : Int)
    (hlev : self.level ≤ node_key.level) (hd : node_key.level - self.level ≤ 30)
    (h0 : 0 ≤ detail)
    (hb : (detail + 2) * 2 ^ (node_key.level - self.level) ≤ i32max) :
    can_subdivide self node_key detail =
      some (decide (inside_box self node_key detail (node_key.level - self.level))) := by
  rw [can_subdivide, if_neg (not_lt.mpr hlev)]
  rw [box_min_eval node_key.coordinates.x hd h0 hb,
    box_min_eval node_key.coordinates.y hd h0 hb,
    box_min_eval node_key.coordinates.z hd h0 hb,
    box_max_eval node_key.coordinates.x hd h0 hb,
    box_max_eval node_key.coordinates.y hd h0 hb,
    box_max_eval node_key.coordinates.z hd h0 hb,
    local_pos_eval, local_pos_eval, local_pos_eval]
  simp only [inside_box, ge_iff_le, Bool.decide_and, Bool.and_assoc]

theorem can_subdivide_true_iff (self node_key : NodeKey) (detail : Int)
    (hlev : self.level ≤ node_key.level) (hd : node_key.level - self.level ≤ 30)
    (h0 : 0 ≤ detail)
    (hb : (detail + 2) * 2 ^ (node_key.level - self.level) ≤ i32max) :
    can_subdivide self node_key detail = some true ↔
      inside_box self node_key detail (node_key.level - self.level) := by
  rw [can_subdivide_eval self node_key detail hlev hd h0 hb]
  simp

theorem can_subdivide_isSome (self node_key : NodeKey) (detail : Int)
    (hd : node_key.level - self.level ≤ 30) (h0 : 0 ≤ detail)
    (hb : (detail + 2) * 2 ^ (node_key.level - self.level) ≤ i32max) :
    (can_subdivide self node_key detail).isSome := by
  by_cases hl : node_key.level < self.level
  · rw [can_subdivide, if_pos hl]; rfl
  · rw [can_subdivide_eval self node_key detail (not_lt.mp hl) hd h0 hb]; rfl

theorem int_dvd_ge (a u M : Int) (ha : 0 < a) (hu : a ∣ u) (hM : a ∣ M)
    (h : M - a < u) : M ≤ u := by
  obtain ⟨i, rfl⟩ := hu
  obtain ⟨j, rfl⟩ := hM
  have h1 : a * (j - 1) < a * i := by rw [mul_sub, mul_one]; exact h
  have h2 : j - 1 < i := lt_of_mul_lt_mul_left h1 (le_of_lt ha)
  exact mul_le_mul_of_nonneg_left (by omega) (le_of_lt ha)

theorem wrap32_pair {P c s : Int} (hP : 0 < P) (hdvd : 2 * P ∣ 2147483648)
    (hs1 : -2147483648 ≤ s) (hs2 : s < 2147483648)
    (h1 : c * P ≤ s) (h2 : s < c * P + P) :
    wrap32 (2 * s) - wrap32 (2 * (c * P)) = 2 * s - 2 * (c * P) := by
  have h2P : 2 * P ≤ 2147483648 := Int.le_of_dvd (by norm_num) hdvd
  have hdu : 2 * P ∣ 2 * (c * P) + 2147483648 := dvd_add ⟨c, by ring⟩ hdvd
  simp only [wrap32]
  rcases lt_or_le (2 * s + 2147483648) 0 with hv | hv
  · omega
  · rcases lt_or_le (2 * s + 2147483648) 4294967296 with hv2 | hv2
    · have hu0 : 0 ≤ 2 * (c * P) + 2147483648 := by
        have := int_dvd_ge (2 * P) (2 * (c * P) + 2147483648) 0
          (by omega) hdu (dvd_zero _) (by omega)
        omega
      omega
    · have huW : 4294967296 ≤ 2 * (c * P) + 2147483648 := by
        have hdW : (2 * P : Int) ∣ 4294967296 := dvd_trans hdvd ⟨2, by norm_num⟩
        have := int_dvd_ge (2 * P) (2 * (c * P) + 2147483648) 4294967296
          (by omega) hdu hdW (by omega)
        omega
      omega

theorem ancestor_axis {detail n s : Int} {d : Nat} (hd : d ≤ 30) (h0 : 0 ≤ detail)
    (hb : (detail + 2) * 2 ^ d ≤ i32max)
    (hs1 : -2147483648 ≤ s) (hs2 : s < 2147483648)
    (h1 : n * 2 ^ d ≤ s) (h2 : s < (n + 1) * 2 ^ d) :
    cmin n detail d ≤ wrap32 (s * 2) ∧ wrap32 (s * 2) < cmax n detail d := by
  have hP : (0 : Int) < 2 ^ d := by positivity
  have hdvd : (2 : Int) * 2 ^ d ∣ 2147483648 := by
    have hpow : ((2 : Int) ^ (d + 1)) ∣ 2 ^ 31 := pow_dvd_pow 2 (by omega)
    have he : ((2 : Int) ^ 31) = 2147483648 := by norm_num
    rw [he] at hpow
    have he2 : (2 : Int) * 2 ^ d = 2 ^ (d + 1) := by rw [pow_succ]; ring
    rw [he2]
    exact hpow
  have h2' : s < n * 2 ^ d + 2 ^ d := by
    have : (n + 1) * 2 ^ d = n * 2 ^ d + 2 ^ d := by ring
    omega
  have hpair := wrap32_pair hP hdvd hs1 hs2 h1 h2'
  have hblb := wrap32_lb (2 * (n * 2 ^ d))
  have hbub := wrap32_ub (2 * (n * 2 ^ d))
  have hllb := wrap32_lb (2 * s)
  have hlub := wrap32_ub (2 * s)
  have heven : wrap32 (2 * s) % 2 = 0 := by
    rw [show (2 * s : Int) = s * 2 from by ring]
    exact wrap32_double_even s
  have hDnn : (0 : Int) ≤ detail * 2 ^ d := mul_nonneg h0 (by positivity)
  have hE2 : (2 : Int) * 2 ^ d ≤ (detail + 2) * 2 ^ d :=
    mul_le_mul_of_nonneg_right (by omega) (by positivity)
  simp only [i32max] at hb
  simp only [cmin, cmax, satSub, satAdd]
  rw [show n * 2 ^ (d + 1) = 2 * (n * 2 ^ d) from by rw [pow_succ]; ring,
    show (s * 2 : Int) = 2 * s from by ring]
  simp only [i32min, i32max] at hblb hbub hllb hlub
  simp only [clamp32, i32min, i32max]
  constructor
  · split_ifs <;> omega
  · split_ifs <;> omega

theorem spec_box_min_eq (n detail : Int) (d : Nat) :
    spec_box_min n detail d = n * 2 ^ (d + 1) - detail * 2 ^ d := by
  simp only [spec_box_min]; rw [pow_succ]; ring

theorem spec_box_max_eq (n detail : Int) (d : Nat) :
    spec_box_max n detail d = n * 2 ^ (d + 1) + (detail + 2) * 2 ^ d := by
  simp only [spec_box_max]; rw [pow_succ]; ring

theorem cmin_exact {n detail : Int} {d : Nat} (h0 : 0 ≤ detail)
    (hx : no_wrap_axis n detail d) :
    cmin n detail d = n * 2 ^ (d + 1) - detail * 2 ^ d := by
  obtain ⟨hx1, hx2⟩ := hx
  have hE0 : (0 : Int) ≤ (detail + 2) * 2 ^ d := mul_nonneg (by omega) (by positivity)
  have hD0 : (0 : Int) ≤ detail * 2 ^ d := mul_nonneg h0 (by positivity)
  have hDE : detail * 2 ^ d ≤ (detail + 2) * 2 ^ d :=
    mul_le_mul_of_nonneg_right (by omega) (by positivity)
  simp only [i32min] at hx1
  simp only [i32max] at hx2
  have e1 : wrap32 (n * 2 ^ (d + 1)) = n * 2 ^ (d + 1) :=
    wrap32_eq_self (by simp only [i32min]; omega) (by simp only [i32max]; omega)
  rw [cmin, e1, satSub]
  exact clamp32_eq_self (by simp only [i32min]; omega) (by simp only [i32max]; omega)

theorem cmax_exact {n detail : Int} {d : Nat} (h0 : 0 ≤ detail)
    (hx : no_wrap_axis n detail d) :
    cmax n detail d = n * 2 ^ (d + 1) + (detail + 2) * 2 ^ d := by
  obtain ⟨hx1, hx2⟩ := hx
  have hE0 : (0 : Int) ≤ (detail + 2) * 2 ^ d := mul_nonneg (by omega) (by positivity)
  simp only [i32min] at hx1
  simp only [i32max] at hx2
  have e1 : wrap32 (n * 2 ^ (d + 1)) = n * 2 ^ (d + 1) :=
    wrap32_eq_self (by simp only [i32min]; omega) (by simp only [i32max]; omega)
  rw [cmax, e1, satAdd]
  exact clamp32_eq_self (by simp only [i32min]; omega) (by simp only [i32max]; omega)

theorem sat_corner_sub_eq {detail : Int} {d : Nat} (hd : d ≤ 30) (h0 : 0 ≤ detail)
    (hb : (detail + 2) * 2 ^ d ≤ i32max) :
    sat_corner_sub detail d = detail * 2 ^ d := by
  have hp1 : (1 : Int) ≤ 2 ^ d := one_le_two_pow_int d
  have hd2 : detail + 2 ≤ (detail + 2) * 2 ^ d := le_mul_of_one_le_right (by omega) hp1
  have hm1 : (detail + 1) * 2 ^ d ≤ (detail + 2) * 2 ^ d :=
    mul_le_mul_of_nonneg_right (by omega) (by positivity)
  have hm0 : detail * 2 ^ d ≤ (detail + 1) * 2 ^ d :=
    mul_le_mul_of_nonneg_right (by omega) (by positivity)
  have hnn : (0 : Int) ≤ detail * 2 ^ d := mul_nonneg h0 (by positivity)
  have hnn1 : (0 : Int) ≤ (detail + 1) * 2 ^ d := mul_nonneg (by omega) (by positivity)
  have h30 : (2 : Int) ^ d ≤ 2 ^ 30 := two_pow_le_of_le hd
  norm_num at h30
  simp only [i32max] at hb
  have e1 : satAdd detail 1 = detail + 1 := by
    rw [satAdd]
    exact clamp32_eq_self (by simp only [i32min]; omega) (by simp only [i32max]; omega)
  have e2 : satShl (detail + 1) d = (detail + 1) * 2 ^ d := by
    rw [satShl]
    exact clamp32_eq_self (by simp only [i32min]; omega) (by simp only [i32max]; omega)
  have e3 : satShl 1 d = (2 : Int) ^ d := by
    rw [satShl, one_mul]
    exact clamp32_eq_self (by simp only [i32min]; omega) (by simp only [i32max]; omega)
  rw [sat_corner_sub, e1, e2, e3, satSub,
    show (detail + 1) * 2 ^ d - 2 ^ d = detail * 2 ^ d from by ring]
  exact clamp32_eq_self (by simp only [i32min]; omega) (by simp only [i32max]; omega)

theorem sat_corner_add_eq {detail : Int} {d : Nat} (hd : d ≤ 30) (h0 : 0 ≤ detail)
    (hb : (detail + 2) * 2 ^ d ≤ i32max) :
    sat_corner_add detail d = (detail + 2) * 2 ^ d := by
  have hp1 : (1 : Int) ≤ 2 ^ d := one_le_two_pow_int d
  have hd2 : detail + 2 ≤ (detail + 2) * 2 ^ d := le_mul_of_one_le_right (by omega) hp1
  have hm1 : (detail + 1) * 2 ^ d ≤ (detail + 2) * 2 ^ d :=
    mul_le_mul_of_nonneg_right (by omega) (by positivity)
  have hnn1 : (0 : Int) ≤ (detail + 1) * 2 ^ d := mul_nonneg (by omega) (by positivity)
  have h30 : (2 : Int) ^ d ≤ 2 ^ 30 := two_pow_le_of_le hd
  norm_num at h30
  simp only [i32max] at hb
  have e1 : satAdd detail 1 = detail + 1 := by
    rw [satAdd]
    exact clamp32_eq_self (by simp only [i32min]; omega) (by simp only [i32max]; omega)
  have e2 : satShl (detail + 1) d = (detail + 1) * 2 ^ d := by
    rw [satShl]
    exact clamp32_eq_self (by simp only [i32min]; omega) (by simp only [i32max]; omega)
  have e3 : satShl 1 d = (2 : Int) ^ d := by
    rw [satShl, one_mul]
    exact clamp32_eq_self (by simp only [i32min]; omega) (by simp only [i32max]; omega)
  rw [sat_corner_add, e1, e2, e3, satAdd,
    show (detail + 1) * 2 ^ d + 2 ^ d = (detail + 2) * 2 ^ d from by ring]
  exact clamp32_eq_self (by simp only [i32min]; omega) (by simp only [i32max]; omega)

theorem sat_box_min_eq {n detail : Int} {d : Nat} (hd : d ≤ 30) (h0 : 0 ≤ detail)
    (hb : (detail + 2) * 2 ^ d ≤ i32max) (hx : no_wrap_axis n detail d) :
    sat_box_min n detail d = cmin n detail d := by
  obtain ⟨hx1, hx2⟩ := hx
  have hE0 : (0 : Int) ≤ (detail + 2) * 2 ^ d := mul_nonneg (by omega) (by positivity)
  have hD0 : (0 : Int) ≤ detail * 2 ^ d := mul_nonneg h0 (by positivity)
  have hDE : detail * 2 ^ d ≤ (detail + 2) * 2 ^ d :=
    mul_le_mul_of_nonneg_right (by omega) (by positivity)
  simp only [i32min] at hx1
  simp only [i32max] at hx2
  have e1 : satShl n (d + 1) = n * 2 ^ (d + 1) := by
    rw [satShl]
    exact clamp32_eq_self (by simp only [i32min]; omega) (by simp only [i32max]; omega)
  rw [sat_box_min, e1, sat_corner_sub_eq hd h0 hb, satSub,
    clamp32_eq_self (show i32min ≤ n * 2 ^ (d + 1) - detail * 2 ^ d from by
      simp only [i32min]; omega)
    (show n * 2 ^ (d + 1) - detail * 2 ^ d ≤ i32max from by simp only [i32max]; omega),
    cmin_exact h0 ⟨by simp only [i32min]; omega, by simp only [i32max]; omega⟩]

theorem sat_box_max_eq {n detail : Int} {d : Nat} (hd : d ≤ 30) (h0 : 0 ≤ detail)
    (hb : (detail + 2) * 2 ^ d ≤ i32max) (hx : no_wrap_axis n detail d) :
    sat_box_max n detail d = cmax n detail d := by
  obtain ⟨hx1, hx2⟩ := hx
  have hE0 : (0 : Int) ≤ (detail + 2) * 2 ^ d := mul_nonneg (by omega) (by positivity)
  simp only [i32min] at hx1
  simp only [i32max] at hx2
  have e1 : satShl n (d + 1) = n * 2 ^ (d + 1) := by
    rw [satShl]
    exact clamp32_eq_self (by simp only [i32min]; omega) (by simp only [i32max]; omega)
  rw [sat_box_max, e1, sat_corner_add_eq hd h0 hb, satAdd,
    clamp32_eq_self (show i32min ≤ n * 2 ^ (d + 1) + (detail + 2) * 2 ^ d from by
      simp only [i32min]; omega)
    (show n * 2 ^ (d + 1) + (detail + 2) * 2 ^ d ≤ i32max from by simp only [i32max]; omega),
    cmax_exact h0 ⟨by simp only [i32min]; omega, by simp only [i32max]; omega⟩]

theorem sat_local_eq {s : Int} (hs : local_in_range s) :
    satShl s 1 = wrap32 (s * 2) := by
  obtain ⟨h1, h2⟩ := hs
  rw [satShl, pow_one, clamp32_eq_self h1 h2, wrap32_eq_self h1 h2]

theorem box_min_none_of_big (n detail : Int) {d : Nat} (hbig : 31 ≤ d) :
    box_min n detail d = none := by
  have e : shl32 n (d + 1) = none := by
    simp only [shl32]
    rw [if_neg]
    omega
  rw [box_min, e]
  rfl

theorem can_subdivide_none_of_big (self node_key : NodeKey) (detail : Int)
    (hl : ¬node_key.level < self.level) (hbig : 31 ≤ node_key.level - self.level) :
    can_subdivide self node_key detail = none := by
  rw [can_subdivide, if_neg hl,
    box_min_none_of_big node_key.coordinates.x detail hbig,
    box_min_none_of_big node_key.coordinates.y detail hbig,
    box_min_none_of_big node_key.coordinates.z detail hbig]

theorem cmin_anti {n : Int} {d1 d2 : Int} {d : Nat} (h12 : d1 ≤ d2) :
    cmin n d2 d ≤ cmin n d1 d := by
  have h : d1 * 2 ^ d ≤ d2 * 2 ^ d := mul_le_mul_of_nonneg_right h12 (by positivity)
  simp only [cmin, satSub]
  exact clamp32_mono (by omega)

theorem cmax_mono {n : Int} {d1 d2 : Int} {d : Nat} (h12 : d1 ≤ d2) :
    cmax n d1 d ≤ cmax n d2 d := by
  have h : (d1 + 2) * 2 ^ d ≤ (d2 + 2) * 2 ^ d :=
    mul_le_mul_of_nonneg_right (by omega) (by positivity)
  simp only [cmax, satAdd]
  exact clamp32_mono (by omega)

theorem cmin_lt_cmax {n detail : Int} (d : Nat) (h0 : 0 ≤ detail) :
    cmin n detail d < cmax n detail d := by
  have hp1 : (1 : Int) ≤ 2 ^ d := one_le_two_pow_int d
  have hlb := wrap32_lb (n * 2 ^ (d + 1))
  have hub := wrap32_ub (n * 2 ^ (d + 1))
  have heven : wrap32 (n * 2 ^ (d + 1)) % 2 = 0 := by
    rw [show n * 2 ^ (d + 1) = n * 2 ^ d * 2 from by rw [pow_succ]; ring]
    exact wrap32_double_even (n * 2 ^ d)
  have hD0 : (0 : Int) ≤ detail * 2 ^ d := mul_nonneg h0 (by positivity)
  have hE2 : (2 : Int) ≤ (detail + 2) * 2 ^ d := by
    have := mul_le_mul_of_nonneg_right (show (2 : Int) ≤ detail + 2 from by omega)
      (show (0 : Int) ≤ 2 ^ d from by positivity)
    omega
  simp only [i32min, i32max] at hlb hub
  simp only [cmin, cmax, satSub, satAdd, clamp32, i32min, i32max]
  split_ifs <;> omega

theorem self_axis {x detail : Int} (h0 : 0 ≤ detail) (hb : detail ≤ 2147483645) :
    cmin x detail 0 ≤ wrap32 (x * 2) ∧ wrap32 (x * 2) < cmax x detail 0 := by
  have hlb := wrap32_lb (x * 2)
  have hub := wrap32_ub (x * 2)
  have heven := wrap32_double_even x
  simp only [i32min, i32max] at hlb hub
  simp only [cmin, cmax, Nat.zero_add, pow_one, pow_zero, mul_one, satSub, satAdd,
    clamp32, i32min, i32max]
  refine ⟨?_, ?_⟩ <;> (split_ifs <;> omega)

theorem equal_level_axis {x y : Int} (hx1 : -1073741824 ≤ x) (hx2 : x ≤ 1073741823)
    (hy1 : -1073741824 ≤ y) (hy2 : y ≤ 1073741823) :
    (cmin y 1 0 ≤ wrap32 (x * 2) ∧ wrap32 (x * 2) < cmax y 1 0) ↔
      (y = x - 1 ∨ y = x) := by
  have ex : wrap32 (x * 2) = x * 2 :=
    wrap32_eq_self (by simp only [i32min]; omega) (by simp only [i32max]; omega)
  have ey : wrap32 (y * 2) = y * 2 :=
    wrap32_eq_self (by simp only [i32min]; omega) (by simp only [i32max]; omega)
  simp only [cmin, cmax, Nat.zero_add, pow_one, pow_zero, mul_one] at *
  rw [ex, ey]
  simp only [satSub, satAdd, clamp32, i32min, i32max]
  split_ifs <;> omega

/-- C1 counterexample: at level difference 31 the doubled shift amount
is 32, so the debug build panics (evaluation fails) instead of
saturating; fully saturating arithmetic would have produced a value. -/
theorem c1_saturation_counterexample :
    can_subdivide ⟨0, ⟨0, 0, 0⟩⟩ ⟨31, ⟨0, 0, 0⟩⟩ 0 = none ∧
    can_subdivide_sat ⟨0, ⟨0, 0, 0⟩⟩ ⟨31, ⟨0, 0, 0⟩⟩ 0 = true := by decide

/-- C1 (amended): only the final corner operations saturate; the shifts
wrap in value and the margin add/subtract can overflow.  Whenever the
level difference is at most 30, the margin `(detail+2)·2^Δ` fits in
`i32`, and the doubled candidate/focus coordinates stay in range,
evaluation of `can_subdivide` succeeds and agrees with the fully
saturating semantics. -/
theorem c1_saturation_amended (self node_key : NodeKey) (detail : Int)
    (hd : node_key.level - self.level ≤ 30) (h0 : 0 ≤ detail)
    (hb : (detail + 2) * 2 ^ (node_key.level - self.level) ≤ i32max)
    (hnx : no_wrap_axis node_key.coordinates.x detail (node_key.level - self.level))
    (hny : no_wrap_axis node_key.coordinates.y detail (node_key.level - self.level))
    (hnz : no_wrap_axis node_key.coordinates.z detail (node_key.level - self.level))
    (hlx : local_in_range self.coordinates.x)
    (hly : local_in_range self.coordinates.y)
    (hlz : local_in_range self.coordinates.z) :
    can_subdivide self node_key detail = some (can_subdivide_sat self node_key detail) := by
  by_cases hl : node_key.level < self.level
  · rw [can_subdivide, can_subdivide_sat, if_pos hl, if_pos hl]
  · rw [can_subdivide_eval self node_key detail (not_lt.mp hl) hd h0 hb,
      can_subdivide_sat, if_neg hl,
      sat_local_eq hlx, sat_local_eq hly, sat_local_eq hlz,
      sat_box_min_eq hd h0 hb hnx, sat_box_min_eq hd h0 hb hny, sat_box_min_eq hd h0 hb hnz,
      sat_box_max_eq hd h0 hb hnx, sat_box_max_eq hd h0 hb hny, sat_box_max_eq hd h0 hb hnz]
    simp only [inside_box, ge_iff_le, Bool.decide_and, Bool.and_assoc]

theorem c1_saturation_witness :
    ((0 : Nat) - 0 ≤ 30) ∧ ((0 : Int) ≤ 0) ∧
    ((0 + 2 : Int) * 2 ^ ((0 : Nat) - 0) ≤ i32max) ∧
    no_wrap_axis 0 0 ((0 : Nat) - 0) ∧ local_in_range 0 ∧
    can_subdivide ⟨0, ⟨0, 0, 0⟩⟩ ⟨0, ⟨0, 0, 0⟩⟩ 0 =
      some (can_subdivide_sat ⟨0, ⟨0, 0, 0⟩⟩ ⟨0, ⟨0, 0, 0⟩⟩ 0) :=
  ⟨by decide, by decide, by decide, by decide, by decide,
    c1_saturation_amended ⟨0, ⟨0, 0, 0⟩⟩ ⟨0, ⟨0, 0, 0⟩⟩ 0 (by decide) (by decide)
      (by decide) (by decide) (by decide) (by decide) (by decide) (by decide) (by decide)⟩

/-- C2 counterexample: the claim quantifies over every same-level
candidate, but a candidate five cells away from the focus at the same
level is rejected. -/
theorem c2_same_level_counterexample :
    can_subdivide ⟨0, ⟨0, 0, 0⟩⟩ ⟨0, ⟨5, 0, 0⟩⟩ 1 = some false := by decide

/-- C2 (amended): at equal level it is the focus's own cell (the
candidate with the focus's coordinates) that always refines, for any
`0 ≤ detail ≤ 2^31 - 3` (larger `detail` makes the margin arithmetic
overflow `i32` and panic). -/
theorem c2_same_level_amended (self : NodeKey) (detail : Int)
    (h0 : 0 ≤ detail) (hb : detail ≤ 2147483645) :
    can_subdivide self self detail = some true := by
  have hb2 : (detail + 2) * 2 ^ (self.level - self.level) ≤ i32max := by
    simp only [Nat.sub_self, pow_zero, mul_one, i32max]
    omega
  rw [can_subdivide_true_iff self self detail (le_refl _) (by simp) h0 hb2]
  simp only [inside_box, Nat.sub_self]
  exact ⟨(self_axis h0 hb).1, (self_axis h0 hb).2, (self_axis h0 hb).1,
    (self_axis h0 hb).2, (self_axis h0 hb).1, (self_axis h0 hb).2⟩

theorem c2_same_level_witness :
    ((0 : Int) ≤ 7) ∧ ((7 : Int) ≤ 2147483645) ∧
    can_subdivide ⟨3, ⟨4, -5, 6⟩⟩ ⟨3, ⟨4, -5, 6⟩⟩ 7 = some true :=
  ⟨by decide, by decide, c2_same_level_amended ⟨3, ⟨4, -5, 6⟩⟩ 7 (by decide) (by decide)⟩

/-- C3 counterexample: the candidate equal to the focus cell is
accepted (`can_subdivide` is true) although the doubled focus
coordinate lies exactly on the min corner, not strictly inside the
expanded box: the code's min-corner comparison is non-strict. -/
theorem c3_strict_inclusion_counterexample :
    can_subdivide ⟨0, ⟨0, 0, 0⟩⟩ ⟨0, ⟨0, 0, 0⟩⟩ 0 = some true ∧
    ¬strictly_inside ⟨0, ⟨0, 0, 0⟩⟩ ⟨0, ⟨0, 0, 0⟩⟩ 0 := by decide

/-- C3 (amended): on the overflow-free domain `can_subdivide` is true
iff the doubled focus coordinate lies inside the detail-expanded child
box with a NON-strict inequality at the min corner and a strict one at
the max corner, on all three axes. -/
theorem c3_inclusion_amended (self node_key : NodeKey) (detail : Int)
    (hlev : self.level ≤ node_key.level)
    (hd : node_key.level - self.level ≤ 30) (h0 : 0 ≤ detail)
    (hb : (detail + 2) * 2 ^ (node_key.level - self.level) ≤ i32max)
    (hnx : no_wrap_axis node_key.coordinates.x detail (node_key.level - self.level))
    (hny : no_wrap_axis node_key.coordinates.y detail (node_key.level - self.level))
    (hnz : no_wrap_axis node_key.coordinates.z detail (node_key.level - self.level))
    (hlx : local_in_range self.coordinates.x)
    (hly : local_in_range self.coordinates.y)
    (hlz : local_in_range self.coordinates.z) :
    can_subdivide self node_key detail = some true ↔
      (spec_box_min node_key.coordinates.x detail (node_key.level - self.level) ≤
          2 * self.coordinates.x ∧
       2 * self.coordinates.x <
          spec_box_max node_key.coordinates.x detail (node_key.level - self.level) ∧
       spec_box_min node_key.coordinates.y detail (node_key.level - self.level) ≤
          2 * self.coordinates.y ∧
       2 * self.coordinates.y <
          spec_box_max node_key.coordinates.y detail (node_key.level - self.level) ∧
       spec_box_min node_key.coordinates.z detail (node_key.level - self.level) ≤
          2 * self.coordinates.z ∧
       2 * self.coordinates.z <
          spec_box_max node_key.coordinates.z detail (node_key.level - self.level)) := by
  obtain ⟨hlx1, hlx2⟩ := hlx
  obtain ⟨hly1, hly2⟩ := hly
  obtain ⟨hlz1, hlz2⟩ := hlz
  simp only [i32min] at hlx1 hly1 hlz1
  simp only [i32max] at hlx2 hly2 hlz2
  have ex : wrap32 (self.coordinates.x * 2) = self.coordinates.x * 2 :=
    wrap32_eq_self (by simp only [i32min]; omega) (by simp only [i32max]; omega)
  have ey : wrap32 (self.coordinates.y * 2) = self.coordinates.y * 2 :=
    wrap32_eq_self (by simp only [i32min]; omega) (by simp only [i32max]; omega)
  have ez : wrap32 (self.coordinates.z * 2) = self.coordinates.z * 2 :=
    wrap32_eq_self (by simp only [i32min]; omega) (by simp only [i32max]; omega)
  rw [can_subdivide_true_iff self node_key detail hlev hd h0 hb]
  simp only [inside_box, spec_box_min_eq, spec_box_max_eq,
    cmin_exact h0 hnx, cmin_exact h0 hny, cmin_exact h0 hnz,
    cmax_exact h0 hnx, cmax_exact h0 hny, cmax_exact h0 hnz, ex, ey, ez]
  omega

theorem c3_inclusion_witness :
    ((0 : Nat) ≤ 1) ∧ ((1 : Nat) - 0 ≤ 30) ∧ ((0 : Int) ≤ 1) ∧
    ((1 + 2 : Int) * 2 ^ ((1 : Nat) - 0) ≤ i32max) ∧
    no_wrap_axis 0 1 ((1 : Nat) - 0) ∧ local_in_range 1 ∧
    (can_subdivide ⟨0, ⟨1, 1, 1⟩⟩ ⟨1, ⟨0, 0, 0⟩⟩ 1 = some true ↔
      (spec_box_min 0 1 ((1 : Nat) - 0) ≤ 2 * (1 : Int) ∧
       2 * (1 : Int) < spec_box_max 0 1 ((1 : Nat) - 0) ∧
       spec_box_min 0 1 ((1 : Nat) - 0) ≤ 2 * (1 : Int) ∧
       2 * (1 : Int) < spec_box_max 0 1 ((1 : Nat) - 0) ∧
       spec_box_min 0 1 ((1 : Nat) - 0) ≤ 2 * (1 : Int) ∧
       2 * (1 : Int) < spec_box_max 0 1 ((1 : Nat) - 0))) :=
  ⟨by decide, by decide, by decide, by decide, by decide, by decide,
    c3_inclusion_amended ⟨0, ⟨1, 1, 1⟩⟩ ⟨1, ⟨0, 0, 0⟩⟩ 1 (by decide) (by decide)
      (by decide) (by decide) (by decide) (by decide) (by decide) (by decide)
      (by decide) (by decide)⟩

/-- C4 counterexample: the root-like candidate at level 32 contains the
focus cell at the origin, yet evaluation panics (shift amount 33), so
the ancestor is not refined. -/
theorem c4_ancestor_counterexample :
    can_subdivide ⟨0, ⟨0, 0, 0⟩⟩ ⟨32, ⟨0, 0, 0⟩⟩ 0 = none := by decide

/-- C4 (amended): every ancestor of the focus cell is refined provided
the level difference is at most 30 and the margin `(detail+2)·2^Δ` fits
in `i32` (beyond that the arithmetic panics); the focus coordinates are
`i32` values. -/
theorem c4_ancestor_amended (self node_key : NodeKey) (detail : Int)
    (hlev : self.level ≤ node_key.level)
    (hd : node_key.level - self.level ≤ 30) (h0 : 0 ≤ detail)
    (hb : (detail + 2) * 2 ^ (node_key.level - self.level) ≤ i32max)
    (hsx1 : -2147483648 ≤ self.coordinates.x) (hsx2 : self.coordinates.x < 2147483648)
    (hsy1 : -2147483648 ≤ self.coordinates.y) (hsy2 : self.coordinates.y < 2147483648)
    (hsz1 : -2147483648 ≤ self.coordinates.z) (hsz2 : self.coordinates.z < 2147483648)
    (hax1 : node_key.coordinates.x * 2 ^ (node_key.level - self.level) ≤ self.coordinates.x)
    (hax2 : self.coordinates.x <
      (node_key.coordinates.x + 1) * 2 ^ (node_key.level - self.level))
    (hay1 : node_key.coordinates.y * 2 ^ (node_key.level - self.level) ≤ self.coordinates.y)
    (hay2 : self.coordinates.y <
      (node_key.coordinates.y + 1) * 2 ^ (node_key.level - self.level))
    (haz1 : node_key.coordinates.z * 2 ^ (node_key.level - self.level) ≤ self.coordinates.z)
    (haz2 : self.coordinates.z <
      (node_key.coordinates.z + 1) * 2 ^ (node_key.level - self.level)) :
    can_subdivide self node_key detail = some true := by
  rw [can_subdivide_true_iff self node_key detail hlev hd h0 hb]
  simp only [inside_box]
  obtain ⟨a1, a2⟩ := ancestor_axis hd h0 hb hsx1 hsx2 hax1 hax2
  obtain ⟨b1, b2⟩ := ancestor_axis hd h0 hb hsy1 hsy2 hay1 hay2
  obtain ⟨c1, c2⟩ := ancestor_axis hd h0 hb hsz1 hsz2 haz1 haz2
  exact ⟨a1, a2, b1, b2, c1, c2⟩

theorem c4_ancestor_witness :
    ((0 : Nat) ≤ 2) ∧ ((2 : Nat) - 0 ≤ 30) ∧ ((0 : Int) ≤ 1) ∧
    ((1 + 2 : Int) * 2 ^ ((2 : Nat) - 0) ≤ i32max) ∧
    ((0 : Int) * 2 ^ ((2 : Nat) - 0) ≤ 1 ∧ (1 : Int) < (0 + 1) * 2 ^ ((2 : Nat) - 0)) ∧
    ((0 : Int) * 2 ^ ((2 : Nat) - 0) ≤ 2 ∧ (2 : Int) < (0 + 1) * 2 ^ ((2 : Nat) - 0)) ∧
    ((0 : Int) * 2 ^ ((2 : Nat) - 0) ≤ 3 ∧ (3 : Int) < (0 + 1) * 2 ^ ((2 : Nat) - 0)) ∧
    can_subdivide ⟨0, ⟨1, 2, 3⟩⟩ ⟨2, ⟨0, 0, 0⟩⟩ 1 = some true :=
  ⟨by decide, by decide, by decide, by decide, by decide, by decide, by decide,
    c4_ancestor_amended ⟨0, ⟨1, 2, 3⟩⟩ ⟨2, ⟨0, 0, 0⟩⟩ 1 (by decide) (by decide)
      (by decide) (by decide) (by decide) (by decide) (by decide) (by decide)
      (by decide) (by decide) (by decide) (by decide) (by decide) (by decide)
      (by decide) (by decide)⟩

/-- C5: a candidate strictly finer than the focus's own level is always
rejected, for every detail value, by the initial guard. -/
theorem c5_never_above_focus (self node_key : NodeKey) (detail : Int)
    (h : node_key.level < self.level) :
    can_subdivide self node_key detail = some false := by
  rw [can_subdivide, if_pos h]

theorem c5_never_above_focus_witness :
    ((0 : Nat) < 1) ∧ can_subdivide ⟨1, ⟨0, 0, 0⟩⟩ ⟨0, ⟨0, 0, 0⟩⟩ (-7) = some false :=
  ⟨by decide, c5_never_above_focus ⟨1, ⟨0, 0, 0⟩⟩ ⟨0, ⟨0, 0, 0⟩⟩ (-7) (by decide)⟩

/-- C6 counterexample: at the focus's own cell the test is true for
`d = 0` but raising the detail to `i32::MAX` makes `detail + 1`
overflow and evaluation panic, so it is no longer true. -/
theorem c6_monotone_counterexample :
    can_subdivide ⟨0, ⟨0, 0, 0⟩⟩ ⟨0, ⟨0, 0, 0⟩⟩ 0 = some true ∧
    can_subdivide ⟨0, ⟨0, 0, 0⟩⟩ ⟨0, ⟨0, 0, 0⟩⟩ 2147483647 = none := by decide

/-- C6 (amended): increasing the detail keeps a true result true as
long as the larger margin `(d2+2)·2^Δ` still fits in `i32`; beyond that
the margin arithmetic overflows (panics, or wraps into an empty box). -/
theorem c6_monotone_amended (self node_key : NodeKey) (d1 d2 : Int)
    (h0 : 0 ≤ d1) (h12 : d1 ≤ d2)
    (hb : (d2 + 2) * 2 ^ (node_key.level - self.level) ≤ i32max)
    (h : can_subdivide self node_key d1 = some true) :
    can_subdivide self node_key d2 = some true := by
  by_cases hl : node_key.level < self.level
  · rw [can_subdivide, if_pos hl] at h
    exact absurd h (by simp)
  · have hlev := not_lt.mp hl
    have hd : node_key.level - self.level ≤ 30 := by
      by_contra hcon
      rw [can_subdivide_none_of_big self node_key d1 hl (by omega)] at h
      exact Option.noConfusion h
    have hb1 : (d1 + 2) * 2 ^ (node_key.level - self.level) ≤ i32max :=
      le_trans (mul_le_mul_of_nonneg_right (by omega) (by positivity)) hb
    rw [can_subdivide_true_iff self node_key d1 hlev hd h0 hb1] at h
    rw [can_subdivide_true_iff self node_key d2 hlev hd (by omega) hb]
    simp only [inside_box] at h ⊢
    obtain ⟨a1, a2, b1, b2, c1, c2⟩ := h
    exact ⟨le_trans (cmin_anti h12) a1, lt_of_lt_of_le a2 (cmax_mono h12),
      le_trans (cmin_anti h12) b1, lt_of_lt_of_le b2 (cmax_mono h12),
      le_trans (cmin_anti h12) c1, lt_of_lt_of_le c2 (cmax_mono h12)⟩

theorem c6_monotone_witness :
    ((0 : Int) ≤ 0) ∧ ((0 : Int) ≤ 5) ∧
    ((5 + 2 : Int) * 2 ^ ((0 : Nat) - 0) ≤ i32max) ∧
    can_subdivide ⟨0, ⟨0, 0, 0⟩⟩ ⟨0, ⟨0, 0, 0⟩⟩ 0 = some true ∧
    can_subdivide ⟨0, ⟨0, 0, 0⟩⟩ ⟨0, ⟨0, 0, 0⟩⟩ 5 = some true :=
  ⟨by decide, by decide, by decide, by decide,
    c6_monotone_amended ⟨0, ⟨0, 0, 0⟩⟩ ⟨0, ⟨0, 0, 0⟩⟩ 0 5 (by decide) (by decide)
      (by decide) (by decide)⟩

/-- C7 counterexample: for `detail = -1` (the claim allows any
`detail ≤ 0`) the computed box is degenerate: on the x axis of the
origin candidate both corners are equal, so the min corner is not
strictly below the max corner. -/
theorem c7_degenerate_counterexample :
    box_min 0 (-1) 0 = some 1 ∧ box_max 0 (-1) 0 = some 1 := by decide

/-- C7 (amended): the box is non-degenerate (computed min corner
strictly below the computed max corner on each axis) for every
`detail ≥ 0` with `(detail+2)·2^Δ ≤ i32::MAX` and level difference at
most 30; for negative detail the box degenerates (counterexample). -/
theorem c7_nondegenerate_amended (self node_key : NodeKey) (detail : Int)
    (_hlev : self.level ≤ node_key.level)
    (hd : node_key.level - self.level ≤ 30) (h0 : 0 ≤ detail)
    (hb : (detail + 2) * 2 ^ (node_key.level - self.level) ≤ i32max) :
    ∃ mnx mxx mny mxy mnz mxz : Int,
      box_min node_key.coordinates.x detail (node_key.level - self.level) = some mnx ∧
      box_max node_key.coordinates.x detail (node_key.level - self.level) = some mxx ∧
      mnx < mxx ∧
      box_min node_key.coordinates.y detail (node_key.level - self.level) = some mny ∧
      box_max node_key.coordinates.y detail (node_key.level - self.level) = some mxy ∧
      mny < mxy ∧
      box_min node_key.coordinates.z detail (node_key.level - self.level) = some mnz ∧
      box_max node_key.coordinates.z detail (node_key.level - self.level) = some mxz ∧
      mnz < mxz :=
  ⟨_, _, _, _, _, _,
    box_min_eval _ hd h0 hb, box_max_eval _ hd h0 hb, cmin_lt_cmax _ h0,
    box_min_eval _ hd h0 hb, box_max_eval _ hd h0 hb, cmin_lt_cmax _ h0,
    box_min_eval _ hd h0 hb, box_max_eval _ hd h0 hb, cmin_lt_cmax _ h0⟩

theorem c7_nondegenerate_witness :
    ((0 : Nat) ≤ 1) ∧ ((1 : Nat) - 0 ≤ 30) ∧ ((0 : Int) ≤ 0) ∧
    ((0 + 2 : Int) * 2 ^ ((1 : Nat) - 0) ≤ i32max) ∧
    (∃ mnx mxx mny mxy mnz mxz : Int,
      box_min 0 0 ((1 : Nat) - 0) = some mnx ∧
      box_max 0 0 ((1 : Nat) - 0) = some mxx ∧ mnx < mxx ∧
      box_min 0 0 ((1 : Nat) - 0) = some mny ∧
      box_max 0 0 ((1 : Nat) - 0) = some mxy ∧ mny < mxy ∧
      box_min 0 0 ((1 : Nat) - 0) = some mnz ∧
      box_max 0 0 ((1 : Nat) - 0) = some mxz ∧ mnz < mxz) :=
  ⟨by decide, by decide, by decide, by decide,
    c7_nondegenerate_amended ⟨0, ⟨0, 0, 0⟩⟩ ⟨1, ⟨0, 0, 0⟩⟩ 0 (by decide) (by decide)
      (by decide) (by decide)⟩

/-- C10 counterexample: with `n.x = s.x - 1` at the wrap boundary
(`s.x = -2^30`) the doubled candidate coordinate wraps around and the
test rejects the pair, although the claim predicts acceptance. -/
theorem c10_asymmetry_counterexample :
    can_subdivide ⟨0, ⟨-1073741824, 0, 0⟩⟩ ⟨0, ⟨-1073741825, 0, 0⟩⟩ 1 = some false := by
  decide

/-- C10 (amended): for equal levels and `detail = 1`, on coordinates in
`[-2^30, 2^30)` (where the doubled values do not wrap),
`can_subdivide` is true iff on each axis the candidate coordinate is
the focus coordinate or the focus coordinate minus one: the margin is
asymmetric, one cell on the negative side and none on the positive. -/
theorem c10_asymmetry_amended (L : Nat) (s n : IVec3)
    (hsx1 : -1073741824 ≤ s.x) (hsx2 : s.x ≤ 1073741823)
    (hsy1 : -1073741824 ≤ s.y) (hsy2 : s.y ≤ 1073741823)
    (hsz1 : -1073741824 ≤ s.z) (hsz2 : s.z ≤ 1073741823)
    (hnx1 : -1073741824 ≤ n.x) (hnx2 : n.x ≤ 1073741823)
    (hny1 : -1073741824 ≤ n.y) (hny2 : n.y ≤ 1073741823)
    (hnz1 : -1073741824 ≤ n.z) (hnz2 : n.z ≤ 1073741823) :
    can_subdivide ⟨L, s⟩ ⟨L, n⟩ 1 = some true ↔
      ((n.x = s.x - 1 ∨ n.x = s.x) ∧ (n.y = s.y - 1 ∨ n.y = s.y) ∧
        (n.z = s.z - 1 ∨ n.z = s.z)) := by
  have hb : ((1 : Int) + 2) * 2 ^ ((⟨L, n⟩ : NodeKey).level - (⟨L, s⟩ : NodeKey).level) ≤
      i32max := by
    simp only [Nat.sub_self, pow_zero, mul_one, i32max]
    norm_num
  rw [can_subdivide_true_iff ⟨L, s⟩ ⟨L, n⟩ 1 (le_refl _) (by simp) (by norm_num) hb]
  simp only [inside_box, Nat.sub_self]
  constructor
  · rintro ⟨a1, a2, b1, b2, c1, c2⟩
    exact ⟨(equal_level_axis hsx1 hsx2 hnx1 hnx2).mp ⟨a1, a2⟩,
      (equal_level_axis hsy1 hsy2 hny1 hny2).mp ⟨b1, b2⟩,
      (equal_level_axis hsz1 hsz2 hnz1 hnz2).mp ⟨c1, c2⟩⟩
  · rintro ⟨hx, hy, hz⟩
    obtain ⟨a1, a2⟩ := (equal_level_axis hsx1 hsx2 hnx1 hnx2).mpr hx
    obtain ⟨b1, b2⟩ := (equal_level_axis hsy1 hsy2 hny1 hny2).mpr hy
    obtain ⟨c1, c2⟩ := (equal_level_axis hsz1 hsz2 hnz1 hnz2).mpr hz
    exact ⟨a1, a2, b1, b2, c1, c2⟩

theorem children_level {k c : NodeKey} (h : c ∈ children k) : c.level = k.level - 1 := by
  simp only [children, List.mem_cons, List.not_mem_nil, or_false] at h
  rcases h with rfl | rfl | rfl | rfl | rfl | rfl | rfl | rfl <;> rfl

theorem parent_of_child {k c : NodeKey} (hk : 1 ≤ k.level) (h : c ∈ children k) :
    parent c = k := by
  have hfd0 : ∀ a : Int, Int.fdiv (2 * a) 2 = a := fun a => by
    rw [Int.fdiv_eq_ediv] <;> omega
  have hfd1 : ∀ a : Int, Int.fdiv (2 * a + 1) 2 = a := fun a => by
    rw [Int.fdiv_eq_ediv] <;> omega
  obtain ⟨lv, ⟨cx, cy, cz⟩⟩ := k
  dsimp only at hk
  simp only [children, List.mem_cons, List.not_mem_nil, or_false] at h
  rcases h with rfl | rfl | rfl | rfl | rfl | rfl | rfl | rfl <;>
    (simp only [parent, hfd0, hfd1, NodeKey.mk.injEq, IVec3.mk.injEq, and_true, true_and]
     omega)

theorem self_mem_fillGo (target : NodeKey) (detail : Int) (fuel : Nat) (key : NodeKey) :
    key ∈ fillGo target detail fuel key := by
  cases fuel <;> simp [fillGo]

theorem level_le_of_mem_fillGo (target : NodeKey) (detail : Int) (fuel : Nat) :
    ∀ key N : NodeKey, key.level = fuel → N ∈ fillGo target detail fuel key →
      N.level ≤ fuel := by
  induction fuel with
  | zero =>
      intro key N hk hN
      simp only [fillGo, List.mem_singleton] at hN
      subst hN
      omega
  | succ fuel ih =>
      intro key N hk hN
      simp only [fillGo, List.mem_cons] at hN
      rcases hN with rfl | hN
      · omega
      · by_cases hc : can_subdivide target key detail = some true
        · rw [if_pos hc] at hN
          obtain ⟨c, hcmem, hNc⟩ := List.mem_flatMap.mp hN
          have hcl : c.level = fuel := by
            have := children_level hcmem
            omega
          exact le_trans (ih c N hcl hNc) (by omega)
        · rw [if_neg hc] at hN
          simp at hN

theorem mem_fillGo_level_eq (target : NodeKey) (detail : Int) (fuel : Nat) :
    ∀ key N : NodeKey, key.level = fuel → N ∈ fillGo target detail fuel key →
      N.level = fuel → N = key := by
  induction fuel with
  | zero =>
      intro key N hk hN _
      simp only [fillGo, List.mem_singleton] at hN
      exact hN
  | succ fuel ih =>
      intro key N hk hN hNl
      simp only [fillGo, List.mem_cons] at hN
      rcases hN with rfl | hN
      · rfl
      · by_cases hc : can_subdivide target key detail = some true
        · rw [if_pos hc] at hN
          obtain ⟨c, hcmem, hNc⟩ := List.mem_flatMap.mp hN
          have hcl : c.level = fuel := by
            have := children_level hcmem
            omega
          have := level_le_of_mem_fillGo target detail fuel c N hcl hNc
          omega
        · rw [if_neg hc] at hN
          simp at hN

theorem parent_mem_fillGo (target : NodeKey) (detail : Int) (fuel : Nat) :
    ∀ key N : NodeKey, key.level = fuel → N ∈ fillGo target detail fuel key →
      N.level < fuel → parent N ∈ fillGo target detail fuel key := by
  induction fuel with
  | zero =>
      intro key N _ _ hlt
      exact absurd hlt (by omega)
  | succ fuel ih =>
      intro key N hk hN hlt
      simp only [fillGo, List.mem_cons] at hN ⊢
      rcases hN with rfl | hN
      · exact absurd hk (by omega)
      · by_cases hc : can_subdivide target key detail = some true
        · rw [if_pos hc] at hN
          obtain ⟨c, hcmem, hNc⟩ := List.mem_flatMap.mp hN
          have hcl : c.level = fuel := by
            have := children_level hcmem
            omega
          by_cases hNl : N.level < fuel
          · right
            rw [if_pos hc]
            exact List.mem_flatMap.mpr ⟨c, hcmem, ih c N hcl hNc hNl⟩
          · have hNf : N.level = fuel := by
              have := level_le_of_mem_fillGo target detail fuel c N hcl hNc
              omega
            have hNeq : N = c := mem_fillGo_level_eq target detail fuel c N hcl hNc hNf
            left
            subst hNeq
            exact parent_of_child (by omega) hcmem
        · rw [if_neg hc] at hN
          simp at hN

/-- C8: no-orphan invariant.  After `update_octree`'s
`fill_tree_from_root` completes, every node strictly below the root
level has its parent (level + 1, coordinates floor-halved) in the tree. -/
theorem c8_no_orphans (target : IVec3) (N : NodeKey)
    (hN : N ∈ update_octree target) (hlt : N.level < root_level) :
    parent N ∈ update_octree target := by
  unfold update_octree fill_tree_from_root at hN ⊢
  exact parent_mem_fillGo ⟨0, target⟩ DETAIL root_key.level root_key N rfl hN hlt

theorem c8_no_orphans_witness :
    (⟨8, ⟨0, 0, 0⟩⟩ : NodeKey) ∈ update_octree ⟨0, 0, 0⟩ ∧ (8 : Nat) < root_level ∧
    parent ⟨8, ⟨0, 0, 0⟩⟩ ∈ update_octree ⟨0, 0, 0⟩ :=
  ⟨by decide, by decide, c8_no_orphans ⟨0, 0, 0⟩ ⟨8, ⟨0, 0, 0⟩⟩ (by decide) (by decide)⟩

theorem mem_visitGo_subset (tree : List NodeKey) (fuel : Nat) :
    ∀ key N : NodeKey, key ∈ tree → N ∈ visitGo tree fuel key → N ∈ tree := by
  induction fuel with
  | zero =>
      intro key N hk hN
      simp only [visitGo, List.mem_singleton] at hN
      subst hN
      exact hk
  | succ fuel ih =>
      intro key N hk hN
      simp only [visitGo, List.mem_cons] at hN
      rcases hN with rfl | hN
      · exact hk
      · obtain ⟨c, hcmem, hNc⟩ := List.mem_flatMap.mp hN
        have hc : c ∈ tree := by
          have h2 := (List.mem_filter.mp hcmem).2
          simpa using h2
        exact ih c N hc hNc

theorem in_bounds_children {k c : NodeKey} (hk : in_bounds k) (h1 : 1 ≤ k.level)
    (hc : c ∈ children k) : in_bounds c := by
  obtain ⟨hl, hx0, hx1, hy0, hy1, hz0, hz1⟩ := hk
  have hpow : (2 : Int) ^ (root_level - (k.level - 1)) = 2 * 2 ^ (root_level - k.level) := by
    have he : root_level - (k.level - 1) = (root_level - k.level) + 1 := by omega
    rw [he, pow_succ]
    ring
  simp only [children, List.mem_cons, List.not_mem_nil, or_false] at hc
  rcases hc with rfl | rfl | rfl | rfl | rfl | rfl | rfl | rfl <;>
    (simp only [in_bounds]
     rw [hpow]
     exact ⟨by omega, by omega, by omega, by omega, by omega, by omega, by omega⟩)

theorem in_bounds_of_mem_fillGo (target : NodeKey) (detail : Int) (fuel : Nat) :
    ∀ key N : NodeKey, key.level = fuel → in_bounds key →
      N ∈ fillGo target detail fuel key → in_bounds N := by
  induction fuel with
  | zero =>
      intro key N _ hkb hN
      simp only [fillGo, List.mem_singleton] at hN
      subst hN
      exact hkb
  | succ fuel ih =>
      intro key N hk hkb hN
      simp only [fillGo, List.mem_cons] at hN
      rcases hN with rfl | hN
      · exact hkb
      · by_cases hc : can_subdivide target key detail = some true
        · rw [if_pos hc] at hN
          obtain ⟨c, hcmem, hNc⟩ := List.mem_flatMap.mp hN
          have hcl : c.level = fuel := by
            have := children_level hcmem
            omega
          exact ih c N hcl (in_bounds_children hkb (by omega) hcmem) hNc
        · rw [if_neg hc] at hN
          simp at hN

theorem root_key_in_bounds : in_bounds root_key := by
  simp only [in_bounds, root_key]
  norm_num

theorem render_bounds_of_in_bounds {N : NodeKey} (h : in_bounds N) :
    render_bounds N =
      some (⟨N.coordinates.x * 2 ^ N.level, N.coordinates.y * 2 ^ N.level,
             N.coordinates.z * 2 ^ N.level⟩,
            ⟨N.coordinates.x * 2 ^ N.level + 2 ^ N.level,
             N.coordinates.y * 2 ^ N.level + 2 ^ N.level,
             N.coordinates.z * 2 ^ N.level + 2 ^ N.level⟩) := by
  obtain ⟨hl, hx0, hx1, hy0, hy1, hz0, hz1⟩ := h
  have hrl : root_level = 9 := rfl
  have hP : (0 : Int) < 2 ^ N.level := by positivity
  have hpw : (2 : Int) ^ (root_level - N.level) * 2 ^ N.level = 512 := by
    rw [← pow_add]
    have he : root_level - N.level + N.level = 9 := by omega
    rw [he]
    norm_num
  have hxb : N.coordinates.x * 2 ^ N.level + 2 ^ N.level ≤ 512 := by
    have h1 : (N.coordinates.x + 1) * 2 ^ N.level ≤
        2 ^ (root_level - N.level) * 2 ^ N.level :=
      mul_le_mul_of_nonneg_right (by omega) (by positivity)
    rw [add_mul, one_mul] at h1
    omega
  have hyb : N.coordinates.y * 2 ^ N.level + 2 ^ N.level ≤ 512 := by
    have h1 : (N.coordinates.y + 1) * 2 ^ N.level ≤
        2 ^ (root_level - N.level) * 2 ^ N.level :=
      mul_le_mul_of_nonneg_right (by omega) (by positivity)
    rw [add_mul, one_mul] at h1
    omega
  have hzb : N.coordinates.z * 2 ^ N.level + 2 ^ N.level ≤ 512 := by
    have h1 : (N.coordinates.z + 1) * 2 ^ N.level ≤
        2 ^ (root_level - N.level) * 2 ^ N.level :=
      mul_le_mul_of_nonneg_right (by omega) (by positivity)
    rw [add_mul, one_mul] at h1
    omega
  have hx0m : (0 : Int) ≤ N.coordinates.x * 2 ^ N.level := mul_nonneg hx0 (by positivity)
  have hy0m : (0 : Int) ≤ N.coordinates.y * 2 ^ N.level := mul_nonneg hy0 (by positivity)
  have hz0m : (0 : Int) ≤ N.coordinates.z * 2 ^ N.level := mul_nonneg hz0 (by positivity)
  have hp : pow2_i32 N.level = some (2 ^ N.level) := by
    simp only [pow2_i32]
    rw [if_pos (by omega)]
  have e1 : checkedMul N.coordinates.x (2 ^ N.level) =
      some (N.coordinates.x * 2 ^ N.level) :=
    checkedMul_eq (by simp only [i32min]; omega) (by simp only [i32max]; omega)
  have e2 : checkedMul N.coordinates.y (2 ^ N.level) =
      some (N.coordinates.y * 2 ^ N.level) :=
    checkedMul_eq (by simp only [i32min]; omega) (by simp only [i32max]; omega)
  have e3 : checkedMul N.coordinates.z (2 ^ N.level) =
      some (N.coordinates.z * 2 ^ N.level) :=
    checkedMul_eq (by simp only [i32min]; omega) (by simp only [i32max]; omega)
  have e4 : checkedAdd (N.coordinates.x * 2 ^ N.level) (2 ^ N.level) =
      some (N.coordinates.x * 2 ^ N.level + 2 ^ N.level) :=
    checkedAdd_eq (by simp only [i32min]; omega) (by simp only [i32max]; omega)
  have e5 : checkedAdd (N.coordinates.y * 2 ^ N.level) (2 ^ N.level) =
      some (N.coordinates.y * 2 ^ N.level + 2 ^ N.level) :=
    checkedAdd_eq (by simp only [i32min]; omega) (by simp only [i32max]; omega)
  have e6 : checkedAdd (N.coordinates.z * 2 ^ N.level) (2 ^ N.level) =
      some (N.coordinates.z * 2 ^ N.level + 2 ^ N.level) :=
    checkedAdd_eq (by simp only [i32min]; omega) (by simp only [i32max]; omega)
  rw [render_bounds, hp]
  simp only [Option.bind_eq_bind, Option.some_bind]
  rw [e1]
  simp only [Option.some_bind]
  rw [e2]
  simp only [Option.some_bind]
  rw [e3]
  simp only [Option.some_bind]
  rw [e4]
  simp only [Option.some_bind]
  rw [e5]
  simp only [Option.some_bind]
  rw [e6]
  simp only [Option.some_bind, Option.pure_def]

/-- C9: world-bounds round-trip.  Every node visited by render's
depth-first traversal gets the world minimum corner
`coordinate * 2^level` and a maximum corner exactly `2^level` above it
on each axis, with no `i32` overflow. -/
theorem c9_world_bounds (target : IVec3) (N : NodeKey)
    (hN : N ∈ render_visited target) :
    render_bounds N =
      some (⟨N.coordinates.x * 2 ^ N.level, N.coordinates.y * 2 ^ N.level,
             N.coordinates.z * 2 ^ N.level⟩,
            ⟨N.coordinates.x * 2 ^ N.level + 2 ^ N.level,
             N.coordinates.y * 2 ^ N.level + 2 ^ N.level,
             N.coordinates.z * 2 ^ N.level + 2 ^ N.level⟩) := by
  have hmem : N ∈ update_octree target := by
    simp only [render_visited] at hN
    obtain ⟨r, hrmem, hNvisit⟩ := List.mem_flatMap.mp hN
    have hr : r ∈ update_octree target := (List.mem_filter.mp hrmem).1
    exact mem_visitGo_subset (update_octree target) r.level r N hr hNvisit
  have hb : in_bounds N := by
    unfold update_octree fill_tree_from_root at hmem
    exact in_bounds_of_mem_fillGo ⟨0, target⟩ DETAIL root_key.level root_key N rfl
      root_key_in_bounds hmem
  exact render_bounds_of_in_bounds hb

theorem c9_world_bounds_witness :
    (⟨9, ⟨0, 0, 0⟩⟩ : NodeKey) ∈ render_visited ⟨0, 0, 0⟩ ∧
    render_bounds ⟨9, ⟨0, 0, 0⟩⟩ = some (⟨0, 0, 0⟩, ⟨512, 512, 512⟩) :=
  ⟨by decide, by
    have h := c9_world_bounds ⟨0, 0, 0⟩ ⟨9, ⟨0, 0, 0⟩⟩ (by decide)
    simpa using h⟩

theorem c10_asymmetry_witness :
    ((-1073741824 : Int) ≤ 0) ∧ ((0 : Int) ≤ 1073741823) ∧
    (can_subdivide ⟨0, ⟨0, 0, 0⟩⟩ ⟨0, ⟨-1, 0, 7⟩⟩ 1 = some true ↔
      (((-1 : Int) = 0 - 1 ∨ (-1 : Int) = 0) ∧ ((0 : Int) = 0 - 1 ∨ (0 : Int) = 0) ∧
        ((7 : Int) = 0 - 1 ∨ (7 : Int) = 0))) :=
  ⟨by decide, by decide,
    c10_asymmetry_amended 0 ⟨0, 0, 0⟩ ⟨-1, 0, 7⟩ (by decide) (by decide) (by decide)
      (by decide) (by decide) (by decide) (by decide) (by decide) (by decide)
      (by decide) (by decide) (by decide)⟩

end OctreeLod
